import Mathlib

/-!
Verification development for the vLLM gRPC gateway (`docker/server.py`).

The gateway wraps an inference engine behind two RPCs (`Generate`,
`StreamGenerate`), bounds concurrency with a semaphore-based admission
guard, and exposes Prometheus-style metrics.  We shallowly embed:

* the engine's output as a list of cumulative snapshots (`Snap`): `none`
  models an engine step whose `out.outputs` list is empty (skipped by a
  `continue` in the source), `some t` models a step whose first output has
  text `t` (after the `or ""` normalisation); text is `List Char`;
* the body of `Generate` / `StreamGenerate` as pure functions over that
  snapshot list, with timestamps threaded explicitly where the source calls
  `time.time()`;
* the admission guard (`admission_guard`, semaphore + queue + gauges) as a
  small-step transition system over an explicit state, with an event trace;
* the background queue-depth monitor loop as an iterated step function.
-/

namespace VllmGateway

/-- One engine iteration result, as consumed by the `async for` loops:
`none` when `out.outputs` is empty (the loop does `continue`),
`some t` for text `t = out.outputs[0].text or ""`. -/
abbrev Snap := Option (List Char)

/-- A wire message of the streaming RPC (`pb.Token`). -/
structure Token where
  text : List Char
  isLast : Bool
deriving DecidableEq, Repr

/-- How one engine invocation ends, together with the snapshots produced
before that point: normal exhaustion of the `async for`, an exception
raised by the engine mid-iteration (with its description), or caller
cancellation surfacing mid-iteration as `asyncio.CancelledError`. -/
inductive EngineRun where
  | normal (snaps : List Snap)
  | engineError (snaps : List Snap) (msg : List Char)
  | cancelled (snaps : List Snap)
deriving DecidableEq, Repr

/-- `EngineRun.engineError` discriminator. -/
def EngineRun.isError : EngineRun → Bool
  | .engineError _ _ => true
  | _ => false

/-- `EngineRun.cancelled` discriminator. -/
def EngineRun.isCancelled : EngineRun → Bool
  | .cancelled _ => true
  | _ => false

/-- `EngineRun.normal` discriminator. -/
def EngineRun.isNormal : EngineRun → Bool
  | .normal _ => true
  | _ => false

/-- The snapshots the `async for` loop actually sees before the run ends. -/
def EngineRun.snapshots : EngineRun → List Snap
  | .normal s => s
  | .engineError s _ => s
  | .cancelled s => s

/-- The `full_text` accumulator of `Generate`: starts at `""` and is
overwritten by each snapshot that has outputs (`full_text = out.outputs[0].text or ""`). -/
def genTextFrom (cur : List Char) : List Snap → List Char
  | [] => cur
  | none :: rest => genTextFrom cur rest
  | some t :: rest => genTextFrom t rest

/-- Final text returned by `Generate` on normal exhaustion. -/
def genText (snaps : List Snap) : List Char := genTextFrom [] snaps

/-- The non-final messages yielded by `StreamGenerate`'s loop, starting from
`last_len = lastLen`: a snapshot with `len(full_text) > last_len` yields
`full_text[last_len:]` and updates `last_len`; others yield nothing.
Translated from `server.py` lines 179-191. -/
def streamTokensFrom (lastLen : Nat) : List Snap → List Token
  | [] => []
  | none :: rest => streamTokensFrom lastLen rest
  | some t :: rest =>
      if lastLen < t.length then
        ⟨t.drop lastLen, false⟩ :: streamTokensFrom t.length rest
      else
        streamTokensFrom lastLen rest

/-- All messages sent on the wire by one `StreamGenerate` call.  The final
`Token("", is_last=True)` at line 193 runs only when the `async with` block
(and hence the `async for`) finishes normally; an engine error or a
cancellation cuts the generator off after the tokens already yielded. -/
def StreamGenerateTokens : EngineRun → List Token
  | .normal snaps => streamTokensFrom 0 snaps ++ [⟨[], true⟩]
  | .engineError snaps _ => streamTokensFrom 0 snaps
  | .cancelled snaps => streamTokensFrom 0 snaps

/-- Result of one unary or streaming RPC call, as observable at the gRPC
layer and on the failure counter:
`reply` is the unary reply text (`Generate` only), `abortInternal` holds the
diagnostic of a `context.abort(StatusCode.INTERNAL, ...)`, `failedDelta`
is how much `REQ_FAILED` was incremented, and `slotReleased` records that
the call left the `async with admission_guard():` block (whose `finally`
clauses run on every exit path). -/
structure RpcResult where
  reply : Option (List Char)
  abortInternal : Option (List Char)
  failedDelta : Nat
  slotReleased : Bool
deriving DecidableEq, Repr

/-- The `f"vLLM error: {type(e).__name__}: {e}"` diagnostic, keeping the
engine's own description. -/
def diagnosticOf (msg : List Char) : List Char :=
  ("vLLM error: ").data ++ msg

/-- Outcome of one `Generate` call (`server.py` lines 129-160): normal
exhaustion returns the accumulated text; `asyncio.CancelledError` returns
silently; any other exception increments `REQ_FAILED` once and aborts with
`StatusCode.INTERNAL`.  In every branch control leaves the
`admission_guard` context manager, so the slot is released. -/
def Generate : EngineRun → RpcResult
  | .normal snaps =>
      { reply := some (genText snaps), abortInternal := none
        failedDelta := 0, slotReleased := true }
  | .engineError _ msg =>
      { reply := none, abortInternal := some (diagnosticOf msg)
        failedDelta := 1, slotReleased := true }
  | .cancelled _ =>
      { reply := none, abortInternal := none
        failedDelta := 0, slotReleased := true }

/-- Outcome of one `StreamGenerate` call (`server.py` lines 165-199) at the
status/counter level; the messages themselves are `StreamGenerateTokens`. -/
def StreamGenerate : EngineRun → RpcResult
  | .normal _ =>
      { reply := none, abortInternal := none
        failedDelta := 0, slotReleased := true }
  | .engineError _ msg =>
      { reply := none, abortInternal := some (diagnosticOf msg)
        failedDelta := 1, slotReleased := true }
  | .cancelled _ =>
      { reply := none, abortInternal := none
        failedDelta := 0, slotReleased := true }

/-- Checks that consecutive textual snapshots form a chain of cumulative
outputs starting from `cur`: each snapshot with outputs extends the previous
text (has it as a prefix).  This is the engine contract for
"cumulative-output snapshots" (spec §6 and glossary). -/
def cumulativeFrom (cur : List Char) : List Snap → Bool
  | [] => true
  | none :: rest => cumulativeFrom cur rest
  | some t :: rest => (t.take cur.length == cur) && cumulativeFrom t rest

/-- Concatenation of the texts of a token list. -/
def concatTexts (ts : List Token) : List Char := (ts.map Token.text).flatten

/-- The emitter as the spec words it (§4.3): it tracks the last *emitted
snapshot*, emits a delta exactly when the next snapshot's length exceeds the
last emitted snapshot's length, computed as the suffix beyond that length,
and silently skips snapshots with no growth.  Stated independently from the code
(`streamTokensFrom` above tracks an integer `last_len` instead), to be
compared with it. -/
def emitterSpec (lastEmitted : List Char) : List Snap → List Token
  | [] => []
  | none :: rest => emitterSpec lastEmitted rest
  | some t :: rest =>
      if lastEmitted.length < t.length then
        ⟨t.drop lastEmitted.length, false⟩ :: emitterSpec t rest
      else
        emitterSpec lastEmitted rest

theorem streamTokensFrom_eq_emitterSpec (snaps : List Snap) :
    ∀ lastEmitted : List Char,
      streamTokensFrom lastEmitted.length snaps = emitterSpec lastEmitted snaps := by
  induction snaps with
  | nil => intro l; rfl
  | cons hd rest ih =>
      intro l
      cases hd with
      | none => simpa [streamTokensFrom, emitterSpec] using ih l
      | some t =>
          by_cases h : l.length < t.length
          · simp only [streamTokensFrom, emitterSpec, if_pos h]
            exact congrArg _ (ih t)
          · simpa [streamTokensFrom, emitterSpec, if_neg h] using ih l

/-- Every message yielded inside the streaming loop is a proper delta:
non-final flag and non-empty text. -/
theorem streamTokensFrom_tokens (snaps : List Snap) :
    ∀ lastLen : Nat, ∀ tok ∈ streamTokensFrom lastLen snaps,
      tok.isLast = false ∧ tok.text ≠ [] := by
  induction snaps with
  | nil => intro _ tok h; simp [streamTokensFrom] at h
  | cons hd rest ih =>
      intro lastLen tok htok
      cases hd with
      | none => exact ih lastLen tok htok
      | some t =>
          by_cases h : lastLen < t.length
          · simp only [streamTokensFrom, if_pos h, List.mem_cons] at htok
            rcases htok with rfl | htok
            · refine ⟨rfl, ?_⟩
              show t.drop lastLen ≠ []
              intro hnil
              have := congrArg List.length hnil
              simp at this
              omega
            · exact ih t.length tok htok
          · simp only [streamTokensFrom, if_neg h] at htok
            exact ih lastLen tok htok

theorem countP_isLast_streamTokensFrom (snaps : List Snap) (lastLen : Nat) :
    (streamTokensFrom lastLen snaps).countP (fun tok => tok.isLast) = 0 := by
  rw [List.countP_eq_zero]
  intro tok htok
  have := (streamTokensFrom_tokens snaps lastLen tok htok).1
  simp [this]

/-- If all textual snapshots in a cumulative chain starting at `cur` extend
their predecessor, the final accumulated text still starts with `cur`. -/
theorem genTextFrom_take (snaps : List Snap) :
    ∀ cur : List Char, cumulativeFrom cur snaps = true →
      (genTextFrom cur snaps).take cur.length = cur := by
  induction snaps with
  | nil => intro cur _; simp [genTextFrom]
  | cons hd rest ih =>
      intro cur hchain
      cases hd with
      | none => exact ih cur hchain
      | some t =>
          simp only [cumulativeFrom, Bool.and_eq_true, beq_iff_eq] at hchain
          obtain ⟨htake, hrest⟩ := hchain
          have hlen : cur.length ≤ t.length := by
            have := congrArg List.length htake
            simp at this
            omega
          have ht := ih t hrest
          show (genTextFrom t rest).take cur.length = cur
          rw [← Nat.min_eq_left hlen, ← List.take_take, ht, htake]

/-- Key concatenation lemma: over a cumulative snapshot chain, the deltas
emitted from position `cur.length` concatenate to the suffix of the final
accumulated text beyond `cur.length`. -/
theorem concat_streamTokensFrom (snaps : List Snap) :
    ∀ cur : List Char, cumulativeFrom cur snaps = true →
      concatTexts (streamTokensFrom cur.length snaps) =
        (genTextFrom cur snaps).drop cur.length := by
  induction snaps with
  | nil =>
      intro cur _
      simp [streamTokensFrom, concatTexts, genTextFrom, List.drop_length]
  | cons hd rest ih =>
      intro cur hchain
      cases hd with
      | none => exact ih cur hchain
      | some t =>
          simp only [cumulativeFrom, Bool.and_eq_true, beq_iff_eq] at hchain
          obtain ⟨htake, hrest⟩ := hchain
          have hlen : cur.length ≤ t.length := by
            have := congrArg List.length htake
            simp at this
            omega
          by_cases hgrow : cur.length < t.length
          · have hsplit : genTextFrom t rest =
                t ++ (genTextFrom t rest).drop t.length := by
              conv_lhs => rw [← List.take_append_drop t.length (genTextFrom t rest)]
              rw [genTextFrom_take rest t hrest]
            have hconcat := ih t hrest
            have hdrop : (genTextFrom t rest).drop cur.length =
                t.drop cur.length ++ (genTextFrom t rest).drop t.length := by
              conv_lhs => rw [hsplit]
              rw [List.drop_append_of_le_length hlen]
            simp only [genTextFrom, streamTokensFrom, if_pos hgrow]
            have hcons :
                concatTexts (⟨t.drop cur.length, false⟩ ::
                    streamTokensFrom t.length rest) =
                  t.drop cur.length ++
                    concatTexts (streamTokensFrom t.length rest) := rfl
            rw [hcons, hconcat, hdrop]
          · have hteq : t = cur := by
              have : t.length ≤ cur.length := Nat.le_of_not_lt hgrow
              have h2 : t.take cur.length = t := List.take_of_length_le this
              rw [h2] at htake
              exact htake
            subst hteq
            simp only [genTextFrom, streamTokensFrom, if_neg hgrow]
            exact ih t hrest

/-- C3: under a cumulative (each snapshot extends the previous) engine, the
concatenation of the non-final messages of `StreamGenerate` is exactly the
text `Generate` replies with. -/
theorem stream_concat_eq_generate (snaps : List Snap)
    (h : cumulativeFrom [] snaps = true) :
    (Generate (.normal snaps)).reply =
      some (concatTexts
        ((StreamGenerateTokens (.normal snaps)).filter fun tok => !tok.isLast)) := by
  have hfilter :
      (StreamGenerateTokens (.normal snaps)).filter (fun tok => !tok.isLast) =
        streamTokensFrom 0 snaps := by
    simp only [StreamGenerateTokens, List.filter_append]
    rw [List.filter_eq_self.mpr, List.filter_cons]
    · simp
    · intro tok htok
      simp [(streamTokensFrom_tokens snaps 0 tok htok).1]
  rw [hfilter]
  have := concat_streamTokensFrom snaps [] h
  simp only [List.length_nil, List.drop_zero] at this
  simp [Generate, genText, this]

theorem stream_concat_eq_generate_witness :
    (Generate (.normal [some ['a'], none, some ['a', 'b'], some ['a', 'b']])).reply =
      some (concatTexts
        ((StreamGenerateTokens
            (.normal [some ['a'], none, some ['a', 'b'], some ['a', 'b']])).filter
          fun tok => !tok.isLast)) :=
  stream_concat_eq_generate _ (by decide)

/-- C4: the streaming loop is exactly the spec's emitter — one message per
strictly-growing snapshot carrying the new suffix, nothing for non-growing
snapshots, no empty deltas — followed by exactly one final marker
`Token("", is_last=True)` on normal exhaustion. -/
theorem streamGenerate_emitter_correct (snaps : List Snap) :
    StreamGenerateTokens (.normal snaps) =
        emitterSpec [] snaps ++ [⟨[], true⟩]
      ∧ (∀ tok ∈ emitterSpec [] snaps, tok.isLast = false ∧ tok.text ≠ [])
      ∧ (StreamGenerateTokens (.normal snaps)).countP (fun tok => tok.isLast) = 1 := by
  have hspec : streamTokensFrom 0 snaps = emitterSpec [] snaps := by
    simpa using streamTokensFrom_eq_emitterSpec snaps []
  refine ⟨?_, ?_, ?_⟩
  · simp [StreamGenerateTokens, hspec]
  · intro tok htok
    rw [← hspec] at htok
    exact streamTokensFrom_tokens snaps 0 tok htok
  · simp [StreamGenerateTokens, List.countP_append,
      countP_isLast_streamTokensFrom, List.countP_cons]

theorem streamGenerate_emitter_correct_witness :
    ∀ tok ∈ emitterSpec [] [some ['a'], some ['a'], some ['a', 'b']],
      tok.isLast = false ∧ tok.text ≠ [] :=
  (streamGenerate_emitter_correct [some ['a'], some ['a'], some ['a', 'b']]).2.1

/-- C9: a final `is_last=true` marker appears in the response stream iff the
engine sequence exhausted normally; in particular a cancelled stream ends
with no terminal marker. -/
theorem no_terminal_marker_on_cancel :
    (∀ snaps : List Snap, ∀ tok ∈ StreamGenerateTokens (.cancelled snaps),
        tok.isLast = false)
    ∧ ∀ r : EngineRun,
        (∃ tok ∈ StreamGenerateTokens r, tok.isLast = true) ↔ r.isNormal = true := by
  constructor
  · intro snaps tok htok
    exact (streamTokensFrom_tokens snaps 0 tok htok).1
  · intro r
    constructor
    · rintro ⟨tok, htok, hlast⟩
      cases r with
      | normal snaps => rfl
      | engineError snaps msg =>
          have := (streamTokensFrom_tokens snaps 0 tok htok).1
          rw [this] at hlast
          exact absurd hlast (by simp)
      | cancelled snaps =>
          have := (streamTokensFrom_tokens snaps 0 tok htok).1
          rw [this] at hlast
          exact absurd hlast (by simp)
    · intro hn
      cases r with
      | normal snaps =>
          exact ⟨⟨[], true⟩, by simp [StreamGenerateTokens], rfl⟩
      | engineError snaps msg => simp [EngineRun.isNormal] at hn
      | cancelled snaps => simp [EngineRun.isNormal] at hn

theorem no_terminal_marker_on_cancel_witness :
    ∀ tok ∈ StreamGenerateTokens (.cancelled [some ['a']]), tok.isLast = false :=
  no_terminal_marker_on_cancel.1 [some ['a']]

/-! ### Time-to-first-token observations

The source reads the wall clock (`time.time()`) once at the start of a call
(`t0`) and again at the snapshot that triggers the TTFT observation; we
thread the clock explicitly by pairing every snapshot with the `ℚ`-valued
time at which the loop body processes it.  The recorded value is
`(t - t0) * 1000` milliseconds, as in the source. -/

/-- The `TTFT_HIST.observe` calls made by `Generate`'s loop (lines 143-152):
one observation at the first snapshot with outputs and non-empty text,
guarded by the `first_token` flag. -/
def genObservations (t0 : ℚ) (firstToken : Bool) : List (Snap × ℚ) → List ℚ
  | [] => []
  | (none, _) :: rest => genObservations t0 firstToken rest
  | (some t, tm) :: rest =>
      if !firstToken && !t.isEmpty then
        ((tm - t0) * 1000) :: genObservations t0 true rest
      else
        genObservations t0 firstToken rest

/-- The `TTFT_HIST.observe` calls made by `StreamGenerate`'s loop
(lines 179-191): one observation at the first snapshot whose length exceeds
`last_len`, guarded by the `first_token_sent` flag. -/
def streamObservations (t0 : ℚ) (lastLen : Nat) (sent : Bool) :
    List (Snap × ℚ) → List ℚ
  | [] => []
  | (none, _) :: rest => streamObservations t0 lastLen sent rest
  | (some t, tm) :: rest =>
      if lastLen < t.length then
        (if sent then [] else [(tm - t0) * 1000]) ++
          streamObservations t0 t.length true rest
      else
        streamObservations t0 lastLen sent rest

/-- The first timed snapshot with outputs and non-empty text, if any. -/
def firstNonempty : List (Snap × ℚ) → Option (List Char × ℚ)
  | [] => none
  | (none, _) :: rest => firstNonempty rest
  | (some t, tm) :: rest =>
      if t.isEmpty then firstNonempty rest else some (t, tm)

theorem genObservations_done (t0 : ℚ) (ts : List (Snap × ℚ)) :
    genObservations t0 true ts = [] := by
  induction ts with
  | nil => rfl
  | cons hd rest ih =>
      obtain ⟨s, tm⟩ := hd
      cases s with
      | none => exact ih
      | some t => simp [genObservations, ih]

theorem streamObservations_done (t0 : ℚ) (ts : List (Snap × ℚ)) :
    ∀ lastLen, streamObservations t0 lastLen true ts = [] := by
  induction ts with
  | nil => intro _; rfl
  | cons hd rest ih =>
      intro lastLen
      obtain ⟨s, tm⟩ := hd
      cases s with
      | none => exact ih lastLen
      | some t =>
          by_cases h : lastLen < t.length <;>
            simp [streamObservations, h, ih]

theorem genObservations_eq_firstNonempty (t0 : ℚ) (ts : List (Snap × ℚ)) :
    genObservations t0 false ts =
      ((firstNonempty ts).map fun p => (p.2 - t0) * 1000).toList := by
  induction ts with
  | nil => rfl
  | cons hd rest ih =>
      obtain ⟨s, tm⟩ := hd
      cases s with
      | none => exact ih
      | some t =>
          by_cases he : t.isEmpty
          · simp [genObservations, firstNonempty, he, ih]
          · simp [genObservations, firstNonempty, he, genObservations_done]

theorem streamObservations_eq_genObservations (t0 : ℚ) (ts : List (Snap × ℚ)) :
    streamObservations t0 0 false ts = genObservations t0 false ts := by
  induction ts with
  | nil => rfl
  | cons hd rest ih =>
      obtain ⟨s, tm⟩ := hd
      cases s with
      | none => exact ih
      | some t =>
          cases t with
          | nil => simpa [streamObservations, genObservations] using ih
          | cons c cs =>
              simp [streamObservations, genObservations,
                streamObservations_done, genObservations_done]

theorem firstNonempty_mem (ts : List (Snap × ℚ)) :
    ∀ t tm, firstNonempty ts = some (t, tm) → (some t, tm) ∈ ts := by
  induction ts with
  | nil => intro t tm h; simp [firstNonempty] at h
  | cons hd rest ih =>
      intro t tm h
      obtain ⟨s, tm'⟩ := hd
      cases s with
      | none =>
          exact List.mem_cons_of_mem _ (ih t tm h)
      | some u =>
          by_cases he : u.isEmpty
          · simp only [firstNonempty, if_pos he] at h
            exact List.mem_cons_of_mem _ (ih t tm h)
          · simp only [firstNonempty, if_neg he, Option.some.injEq,
              Prod.mk.injEq] at h
            obtain ⟨rfl, rfl⟩ := h
            exact List.mem_cons_self _ _

/-- C5: in both RPCs, TTFT is observed exactly at the first snapshot with
non-empty text (hence at most once, never a second time), and — provided
the clock strictly advanced since `t0` by the time each snapshot is handled
and every snapshot is handled no later than the call's completion time
`tEnd` — the recorded value is strictly positive and at most the total
session latency in milliseconds. -/
theorem ttft_observed_once (t0 tEnd : ℚ) (ts : List (Snap × ℚ))
    (hbound : ∀ p ∈ ts, t0 < p.2 ∧ p.2 ≤ tEnd) :
    genObservations t0 false ts =
        ((firstNonempty ts).map fun p => (p.2 - t0) * 1000).toList
      ∧ streamObservations t0 0 false ts = genObservations t0 false ts
      ∧ (genObservations t0 false ts).length ≤ 1
      ∧ ∀ v ∈ genObservations t0 false ts,
          0 < v ∧ v ≤ (tEnd - t0) * 1000 := by
  refine ⟨genObservations_eq_firstNonempty t0 ts,
    streamObservations_eq_genObservations t0 ts, ?_, ?_⟩
  · rw [genObservations_eq_firstNonempty]
    cases firstNonempty ts <;> simp
  · intro v hv
    rw [genObservations_eq_firstNonempty] at hv
    cases hfn : firstNonempty ts with
    | none => simp [hfn] at hv
    | some p =>
        obtain ⟨t, tm⟩ := p
        simp only [hfn] at hv
        simp at hv
        have hmem := firstNonempty_mem ts t tm hfn
        obtain ⟨h1, h2⟩ := hbound _ hmem
        simp only [] at h1 h2
        subst hv
        constructor
        · have : (0 : ℚ) < tm - t0 := by linarith
          positivity
        · have : tm - t0 ≤ tEnd - t0 := by linarith
          nlinarith

theorem ttft_observed_once_witness :
    genObservations 1 false [(some ['a'], (3 : ℚ))] =
        ((firstNonempty [(some ['a'], (3 : ℚ))]).map
          fun p => (p.2 - 1) * 1000).toList
      ∧ streamObservations 1 0 false [(some ['a'], (3 : ℚ))] =
          genObservations 1 false [(some ['a'], (3 : ℚ))]
      ∧ (genObservations 1 false [(some ['a'], (3 : ℚ))]).length ≤ 1
      ∧ ∀ v ∈ genObservations 1 false [(some ['a'], (3 : ℚ))],
          0 < v ∧ v ≤ ((4 : ℚ) - 1) * 1000 :=
  ttft_observed_once 1 4 [(some ['a'], (3 : ℚ))]
    (by intro p hp; simp at hp; subst hp; norm_num)

/-- All-empty engine output: the `full_text` accumulator never leaves `""`. -/
theorem genTextFrom_of_all_empty (snaps : List Snap)
    (h : ∀ t, some t ∈ snaps → t = []) : genTextFrom [] snaps = [] := by
  induction snaps with
  | nil => rfl
  | cons hd rest ih =>
      cases hd with
      | none =>
          exact ih fun t ht => h t (List.mem_cons_of_mem _ ht)
      | some t =>
          have ht : t = [] := h t (List.mem_cons_self _ _)
          subst ht
          exact ih fun t ht => h t (List.mem_cons_of_mem _ ht)

/-- C10: when no snapshot carries non-empty text (empty sequences and
output-less snapshots included), `Generate` still returns normally with an
empty reply text, and no TTFT observation is made. -/
theorem generate_empty_engine_output (ts : List (Snap × ℚ)) (t0 : ℚ)
    (h : ∀ t tm, (some t, tm) ∈ ts → t = []) :
    Generate (.normal (ts.map Prod.fst)) =
        { reply := some [], abortInternal := none
          failedDelta := 0, slotReleased := true }
      ∧ genObservations t0 false ts = [] := by
  constructor
  · have hsnaps : ∀ t, some t ∈ ts.map Prod.fst → t = [] := by
      intro t ht
      rw [List.mem_map] at ht
      obtain ⟨⟨s, tm⟩, hmem, heq⟩ := ht
      cases heq
      exact h t tm hmem
    simp [Generate, genText, genTextFrom_of_all_empty _ hsnaps]
  · induction ts with
    | nil => rfl
    | cons hd rest ih =>
        obtain ⟨s, tm⟩ := hd
        cases s with
        | none =>
            exact ih fun t tm' ht => h t tm' (List.mem_cons_of_mem _ ht)
        | some t =>
            have ht : t = [] := h t tm (List.mem_cons_self _ _)
            subst ht
            simpa [genObservations] using
              ih fun t tm' ht => h t tm' (List.mem_cons_of_mem _ ht)

theorem generate_empty_engine_output_witness :
    Generate (.normal ([(some [], (2 : ℚ)), (none, (3 : ℚ))].map Prod.fst)) =
        { reply := some [], abortInternal := none
          failedDelta := 0, slotReleased := true }
      ∧ genObservations 1 false [(some [], (2 : ℚ)), (none, (3 : ℚ))] = [] :=
  generate_empty_engine_output [(some [], (2 : ℚ)), (none, (3 : ℚ))] 1
    (by intro t tm h; simp at h; rcases h with ⟨h, _⟩; exact h)

/-- C7: the failure counter moves exactly on engine-error outcomes; an
engine error aborts with an `INTERNAL` diagnostic; a cancellation
increments nothing and surfaces no error; and all outcomes leave the
admission-guard block, releasing the slot. -/
theorem failure_counter_iff_failed (r : EngineRun) :
    (Generate r).failedDelta = (if r.isError then 1 else 0)
  ∧ (StreamGenerate r).failedDelta = (if r.isError then 1 else 0)
  ∧ (Generate r).abortInternal.isSome = r.isError
  ∧ (StreamGenerate r).abortInternal.isSome = r.isError
  ∧ (∀ snaps msg, r = .engineError snaps msg →
      (Generate r).abortInternal = some (diagnosticOf msg)
      ∧ (StreamGenerate r).abortInternal = some (diagnosticOf msg))
  ∧ (r.isCancelled = true →
      (Generate r).failedDelta = 0 ∧ (Generate r).abortInternal = none
      ∧ (StreamGenerate r).failedDelta = 0
      ∧ (StreamGenerate r).abortInternal = none)
  ∧ (Generate r).slotReleased = true
  ∧ (StreamGenerate r).slotReleased = true := by
  cases r <;>
    simp [Generate, StreamGenerate, EngineRun.isError, EngineRun.isCancelled]

theorem failure_counter_iff_failed_witness :
    (Generate (.engineError [] ['b'])).abortInternal =
        some (diagnosticOf ['b'])
      ∧ (StreamGenerate (.engineError [] ['b'])).abortInternal =
        some (diagnosticOf ['b']) :=
  (failure_counter_iff_failed (.engineError [] ['b'])).2.2.2.2.1 [] ['b'] rfl

/-! ### The admission guard as a transition system

`admission_guard` (lines 72-93) drives each call through:
`await admission_queue.put(1)` and a gauge update, `await
admission_sem.acquire()`, then — inside the guarded block —
`get_nowait()`/gauge update and `INFLIGHT.inc()`, the RPC body, and on any
exit `INFLIGHT.dec()` and `admission_sem.release()` in `finally` clauses.
The cooperative scheduler only switches tasks at `await` points, so we take
as atomic steps: arrival (put + gauge), admission (acquire + dequeue +
gauge + inflight increment), cancellation while blocked in `acquire` (the
`put` at line 75 sits outside every `try`, so the queue item stays behind),
and termination of the guarded block (inflight decrement + semaphore
release, identical for normal return, engine error and cancellation). -/

/-- How a guarded RPC body ends. -/
inductive ExitKind where
  | normal
  | engineError
  | cancelled
deriving DecidableEq, Repr

/-- Where one call stands in `admission_guard`. -/
inductive Phase where
  | waiting
  | admitted
  | cancelledWait
  | done (k : ExitKind)
deriving DecidableEq, Repr

/-- Process-wide mutable state touched by `admission_guard`:
the semaphore's available permits, `admission_queue.qsize()`, the two
gauges, and the phase of every session that ever arrived. -/
structure GateState where
  sem : Nat
  queueItems : Nat
  queueGauge : Nat
  inflight : Nat
  sessions : List Phase
deriving DecidableEq, Repr

/-- Startup state: `asyncio.Semaphore(MAX_INFLIGHT)`, empty queue, zeroed
gauges (line 68-69). -/
def initState (cap : Nat) : GateState :=
  { sem := cap, queueItems := 0, queueGauge := 0, inflight := 0, sessions := [] }

/-- Scheduler-visible events, naming affected sessions by index. -/
inductive Ev where
  | arrive
  | grant (i : Nat)
  | cancelWait (i : Nat)
  | finish (i : Nat) (k : ExitKind)
deriving DecidableEq, Repr

/-- One atomic step of `admission_guard`.  `admit` requires a free permit;
its queue pop mirrors `get_nowait()` with the `QueueEmpty` branch folded
into truncated subtraction.  `cancelWait` models `CancelledError` raised
inside `acquire` — no permit is held, no `finally` runs, and the queue item
from line 75 is left behind.  `finish` is the `finally` pair (lines 90-93),
identical for all exit kinds. -/
inductive Step (cap : Nat) : GateState → Ev → GateState → Prop where
  | arrive (s : GateState) :
      Step cap s .arrive
        { s with queueItems := s.queueItems + 1
                 queueGauge := s.queueItems + 1
                 sessions := s.sessions ++ [.waiting] }
  | grant (s : GateState) (i : Nat)
      (hp : s.sessions[i]? = some .waiting) (hsem : 0 < s.sem) :
      Step cap s (.grant i)
        { s with sem := s.sem - 1
                 queueItems := s.queueItems - 1
                 queueGauge := s.queueItems - 1
                 inflight := s.inflight + 1
                 sessions := s.sessions.set i .admitted }
  | cancelWait (s : GateState) (i : Nat)
      (hp : s.sessions[i]? = some .waiting) :
      Step cap s (.cancelWait i)
        { s with sessions := s.sessions.set i .cancelledWait }
  | finish (s : GateState) (i : Nat) (k : ExitKind)
      (hp : s.sessions[i]? = some .admitted) :
      Step cap s (.finish i k)
        { s with sem := s.sem + 1
                 inflight := s.inflight - 1
                 sessions := s.sessions.set i (.done k) }

/-- Reachability from startup, remembering the event trace. -/
inductive Reach (cap : Nat) : GateState → List Ev → Prop where
  | init : Reach cap (initState cap) []
  | step {s : GateState} {tr : List Ev} {e : Ev} {s' : GateState} :
      Reach cap s tr → Step cap s e s' → Reach cap s' (tr ++ [e])

/-- Sessions currently holding an admission slot. -/
def nAdmitted (s : GateState) : Nat :=
  s.sessions.countP fun p => p == Phase.admitted

/-- Sessions blocked in `acquire` — tickets not yet granted. -/
def nWaiting (s : GateState) : Nat :=
  s.sessions.countP fun p => p == Phase.waiting

/-- Sessions cancelled while blocked in `acquire`. -/
def nCancelledWait (s : GateState) : Nat :=
  s.sessions.countP fun p => p == Phase.cancelledWait

theorem countP_set_eq {α : Type} (p : α → Bool) :
    ∀ (l : List α) (i : Nat) (x y : α), l[i]? = some y →
      (l.set i x).countP p + (if p y then 1 else 0) =
        l.countP p + (if p x then 1 else 0) := by
  intro l
  induction l with
  | nil => intro i x y h; simp at h
  | cons a as ih =>
      intro i x y h
      cases i with
      | zero =>
          simp only [List.getElem?_cons_zero, Option.some.injEq] at h
          subst h
          simp only [List.set_cons_zero, List.countP_cons]
          cases hpa : p a <;> cases hpx : p x <;> simp
      | succ n =>
          simp only [List.getElem?_cons_succ] at h
          have := ih n x y h
          simp only [List.set_cons_succ, List.countP_cons]
          omega

theorem countP_pos_of_getElem {α : Type} (p : α → Bool) (l : List α)
    (i : Nat) (y : α) (h : l[i]? = some y) (hy : p y = true) :
    0 < l.countP p := by
  rw [List.countP_pos_iff]
  exact ⟨y, List.getElem?_mem h, hy⟩

/-- The inductive invariant of the admission guard: the semaphore accounts
exactly for the held slots, the in-flight gauge counts exactly the held
slots, the queue-length gauge always equals `qsize()`, and `qsize()`
counts the waiting sessions plus the stale items of cancelled waiters. -/
def Inv (cap : Nat) (s : GateState) : Prop :=
  s.sem + nAdmitted s = cap
  ∧ s.inflight = nAdmitted s
  ∧ s.queueGauge = s.queueItems
  ∧ s.queueItems = nWaiting s + nCancelledWait s

theorem reach_inv {cap : Nat} {s : GateState} {tr : List Ev}
    (h : Reach cap s tr) : Inv cap s := by
  induction h with
  | init => simp [Inv, initState, nAdmitted, nWaiting, nCancelledWait]
  | @step s tr e s' hr hs ih =>
      obtain ⟨h1, h2, h3, h4⟩ := ih
      cases hs with
      | arrive =>
          simp only [nAdmitted, nWaiting, nCancelledWait] at h1 h2 h3 h4
          simp [Inv, nAdmitted, nWaiting, nCancelledWait,
            List.countP_append, List.countP_cons]
          omega
      | grant i hp hsem =>
          have hA := countP_set_eq (fun p => p == Phase.admitted)
            s.sessions i .admitted .waiting hp
          have hW := countP_set_eq (fun p => p == Phase.waiting)
            s.sessions i .admitted .waiting hp
          have hC := countP_set_eq (fun p => p == Phase.cancelledWait)
            s.sessions i .admitted .waiting hp
          have hWpos := countP_pos_of_getElem (fun p => p == Phase.waiting)
            s.sessions i .waiting hp rfl
          simp at hA hW hC
          simp only [nAdmitted, nWaiting, nCancelledWait] at h1 h2 h3 h4 hWpos
          simp only [Inv, nAdmitted, nWaiting, nCancelledWait]
          refine ⟨?_, ?_, ?_, ?_⟩ <;> first | trivial | omega
      | cancelWait i hp =>
          have hA := countP_set_eq (fun p => p == Phase.admitted)
            s.sessions i .cancelledWait .waiting hp
          have hW := countP_set_eq (fun p => p == Phase.waiting)
            s.sessions i .cancelledWait .waiting hp
          have hC := countP_set_eq (fun p => p == Phase.cancelledWait)
            s.sessions i .cancelledWait .waiting hp
          have hWpos := countP_pos_of_getElem (fun p => p == Phase.waiting)
            s.sessions i .waiting hp rfl
          simp at hA hW hC
          simp only [nAdmitted, nWaiting, nCancelledWait] at h1 h2 h3 h4 hWpos
          simp only [Inv, nAdmitted, nWaiting, nCancelledWait]
          refine ⟨?_, ?_, ?_, ?_⟩ <;> first | trivial | omega
      | finish i k hp =>
          have hA := countP_set_eq (fun p => p == Phase.admitted)
            s.sessions i (.done k) .admitted hp
          have hW := countP_set_eq (fun p => p == Phase.waiting)
            s.sessions i (.done k) .admitted hp
          have hC := countP_set_eq (fun p => p == Phase.cancelledWait)
            s.sessions i (.done k) .admitted hp
          simp at hA hW hC
          simp only [nAdmitted, nWaiting, nCancelledWait] at h1 h2 h3 h4
          simp only [Inv, nAdmitted, nWaiting, nCancelledWait]
          refine ⟨?_, ?_, ?_, ?_⟩ <;> first | trivial | omega

/-- C1: at every reachable state, the sessions holding an admission slot are
at most the configured capacity, the in-flight gauge counts exactly those
sessions, and hence is itself at most the capacity (which no step changes). -/
theorem inflight_le_capacity (cap : Nat) (s : GateState) (tr : List Ev)
    (h : Reach cap s tr) :
    nAdmitted s ≤ cap ∧ s.inflight = nAdmitted s ∧ s.inflight ≤ cap := by
  obtain ⟨h1, h2, _, _⟩ := reach_inv h
  omega

theorem inflight_le_capacity_witness :
    nAdmitted (initState 2) ≤ 2
      ∧ (initState 2).inflight = nAdmitted (initState 2)
      ∧ (initState 2).inflight ≤ 2 :=
  inflight_le_capacity 2 (initState 2) [] Reach.init

/-- Number of slot releases session `i` has performed in a trace: the
`finally: admission_sem.release()` runs exactly at its `finish` event. -/
def releasesOf (i : Nat) (tr : List Ev) : Nat :=
  tr.countP fun e =>
    match e with
    | .finish j _ => j == i
    | _ => false

/-- How many releases a session in the given phase has performed. -/
def releasedVal : Option Phase → Nat
  | some (.done _) => 1
  | _ => 0

theorem releasedVal_le_one (o : Option Phase) : releasedVal o ≤ 1 := by
  match o with
  | none => exact Nat.zero_le 1
  | some .waiting => exact Nat.zero_le 1
  | some .admitted => exact Nat.zero_le 1
  | some .cancelledWait => exact Nat.zero_le 1
  | some (.done _) => exact Nat.le_refl 1

theorem releasesOf_eq {cap : Nat} {s : GateState} {tr : List Ev}
    (h : Reach cap s tr) :
    ∀ i : Nat, releasesOf i tr = releasedVal s.sessions[i]? := by
  induction h with
  | init => intro i; simp [releasesOf, releasedVal, initState]
  | @step s tr e s' hr hs ih =>
      intro i
      cases hs with
      | arrive =>
          have htr : releasesOf i (tr ++ [Ev.arrive]) = releasesOf i tr := by
            simp [releasesOf, List.countP_append, List.countP_cons]
          rw [htr, ih i]
          show releasedVal s.sessions[i]? =
            releasedVal (s.sessions ++ [Phase.waiting])[i]?
          by_cases hi : i < s.sessions.length
          · rw [List.getElem?_append_left hi]
          · rw [List.getElem?_append_right (Nat.le_of_not_lt hi)]
            rw [List.getElem?_eq_none_iff.mpr (Nat.le_of_not_lt hi)]
            cases hd : i - s.sessions.length with
            | zero => rfl
            | succ n => rfl
      | grant j hp hsem =>
          have htr : releasesOf i (tr ++ [Ev.grant j]) = releasesOf i tr := by
            simp [releasesOf, List.countP_append, List.countP_cons]
          rw [htr, ih i]
          show releasedVal s.sessions[i]? =
            releasedVal (s.sessions.set j Phase.admitted)[i]?
          rw [List.getElem?_set]
          by_cases hij : j = i
          · subst hij
            have hlt : j < s.sessions.length :=
              (List.getElem?_eq_some_iff.mp hp).1
            rw [if_pos rfl, if_pos hlt, hp]
            rfl
          · rw [if_neg hij]
      | cancelWait j hp =>
          have htr : releasesOf i (tr ++ [Ev.cancelWait j]) = releasesOf i tr := by
            simp [releasesOf, List.countP_append, List.countP_cons]
          rw [htr, ih i]
          show releasedVal s.sessions[i]? =
            releasedVal (s.sessions.set j Phase.cancelledWait)[i]?
          rw [List.getElem?_set]
          by_cases hij : j = i
          · subst hij
            have hlt : j < s.sessions.length :=
              (List.getElem?_eq_some_iff.mp hp).1
            rw [if_pos rfl, if_pos hlt, hp]
            rfl
          · rw [if_neg hij]
      | finish j k hp =>
          have htr : releasesOf i (tr ++ [Ev.finish j k]) =
              releasesOf i tr + (if (j == i) then 1 else 0) := by
            simp [releasesOf, List.countP_append, List.countP_cons]
          rw [htr, ih i]
          show releasedVal s.sessions[i]? + _ =
            releasedVal (s.sessions.set j (Phase.done k))[i]?
          rw [List.getElem?_set]
          by_cases hij : j = i
          · subst hij
            have hlt : j < s.sessions.length :=
              (List.getElem?_eq_some_iff.mp hp).1
            rw [if_pos rfl, if_pos hlt, hp]
            simp [releasedVal]
          · rw [if_neg hij]
            have : (j == i) = false := by
              simp [hij]
            rw [this]
            rfl

/-- C2: in every execution, every session releases its admission slot at
most once, and a session that terminated after admission — by normal
completion, engine error, or cancellation alike — has released it exactly
once; capacity is never handed back twice for the same guard. -/
theorem slot_release_exactly_once (cap : Nat) (s : GateState) (tr : List Ev)
    (h : Reach cap s tr) (i : Nat) :
    releasesOf i tr = releasedVal s.sessions[i]?
      ∧ releasesOf i tr ≤ 1
      ∧ ∀ k : ExitKind, s.sessions[i]? = some (.done k) → releasesOf i tr = 1 := by
  have heq := releasesOf_eq h i
  refine ⟨heq, ?_, ?_⟩
  · rw [heq]; exact releasedVal_le_one _
  · intro k hk
    rw [heq, hk]
    rfl

theorem slot_release_exactly_once_witness :
    releasesOf 0 [Ev.arrive, Ev.grant 0, Ev.finish 0 .cancelled] = 1 := by
  have h0 : Reach 1 (initState 1) [] := Reach.init
  have h1 := Reach.step h0 (Step.arrive (initState 1))
  have h2 := Reach.step h1 (Step.grant _ 0 rfl (by decide))
  have h3 := Reach.step h2 (Step.finish _ 0 .cancelled rfl)
  exact (slot_release_exactly_once 1 _ _ h3 0).2.2 .cancelled rfl

/-- The state reached (capacity 1) after: request A arrives and is
admitted; request B arrives and is cancelled while waiting in `acquire`.
B's queue item from line 75 is never consumed, so `qsize()` — and the
queue-length gauge — stays at 1 with nobody waiting. -/
def staleGaugeState : GateState :=
  { sem := 0, queueItems := 1, queueGauge := 1, inflight := 1
    sessions := [.admitted, .cancelledWait] }

/-- C6 counterexample: a reachable state (reached right after a waiting
request is cancelled) where the queue-length gauge reads 1 but the number
of admission tickets not yet granted is 0. -/
theorem queue_gauge_counterexample :
    Reach 1 staleGaugeState
        [Ev.arrive, Ev.grant 0, Ev.arrive, Ev.cancelWait 1]
      ∧ staleGaugeState.queueGauge = 1
      ∧ nWaiting staleGaugeState = 0 := by
  refine ⟨?_, rfl, by decide⟩
  have h0 : Reach 1 (initState 1) [] := Reach.init
  have h1 := Reach.step h0 (Step.arrive (initState 1))
  have h2 := Reach.step h1 (Step.grant _ 0 rfl (by decide))
  have h3 := Reach.step h2 (Step.arrive _)
  have h4 := Reach.step h3 (Step.cancelWait _ 1 rfl)
  exact h4

/-- No waiter was ever cancelled in this trace. -/
def NoWaitCancellation (tr : List Ev) : Prop :=
  ∀ i : Nat, Ev.cancelWait i ∉ tr

theorem nCancelledWait_eq_zero {cap : Nat} {s : GateState} {tr : List Ev}
    (h : Reach cap s tr) (hnc : NoWaitCancellation tr) :
    nCancelledWait s = 0 := by
  induction h with
  | init => rfl
  | @step s tr e s' hr hs ih =>
      have hnc' : NoWaitCancellation tr := by
        intro i hi
        exact hnc i (List.mem_append_left _ hi)
      have hzero := ih hnc'
      simp only [nCancelledWait] at hzero
      cases hs with
      | arrive =>
          simp only [nCancelledWait]
          simp [List.countP_append, List.countP_cons, hzero]
      | grant j hp hsem =>
          have hC := countP_set_eq (fun p => p == Phase.cancelledWait)
            s.sessions j .admitted .waiting hp
          simp at hC
          show List.countP (fun p => p == Phase.cancelledWait)
            (s.sessions.set j Phase.admitted) = 0
          omega
      | cancelWait j hp =>
          exact absurd (List.mem_append_right _ (List.mem_singleton.mpr rfl))
            (hnc j)
      | finish j k hp =>
          have hC := countP_set_eq (fun p => p == Phase.cancelledWait)
            s.sessions j (.done k) .admitted hp
          simp at hC
          show List.countP (fun p => p == Phase.cancelledWait)
            (s.sessions.set j (Phase.done k)) = 0
          omega

/-- C6 amended: the queue-length gauge always equals `qsize()` and is
nonnegative; in every execution in which no waiting request is cancelled,
it moreover equals the number of admission tickets not yet granted. -/
theorem queue_gauge_eq_waiting_of_no_cancel (cap : Nat) (s : GateState)
    (tr : List Ev) (h : Reach cap s tr) (hnc : NoWaitCancellation tr) :
    s.queueGauge = nWaiting s ∧ 0 ≤ s.queueGauge
      ∧ s.queueGauge = s.queueItems := by
  obtain ⟨_, _, h3, h4⟩ := reach_inv h
  have h0 := nCancelledWait_eq_zero h hnc
  refine ⟨by omega, Nat.zero_le _, h3⟩

theorem queue_gauge_eq_waiting_of_no_cancel_witness :
    (initState 3).queueGauge = nWaiting (initState 3)
      ∧ 0 ≤ (initState 3).queueGauge
      ∧ (initState 3).queueGauge = (initState 3).queueItems :=
  queue_gauge_eq_waiting_of_no_cancel 3 (initState 3) [] Reach.init
    (by intro i hi; simp at hi)

/-! ### The queue-depth monitor loop

`monitor_vllm_internal_queue` (lines 205-214) runs `while True`: it awaits
`engine.get_model_executor_status()` (which may raise), reads the attribute
`num_waiting_requests` via `getattr` (possibly absent, possibly
non-numeric), sets the gauge only for a numeric value, swallows every
exception, and in all cases sleeps 5 seconds before the next iteration. -/

/-- What `getattr(stats, "num_waiting_requests", None)` can produce. -/
inductive MonValue where
  | num (n : Int)
  | nonNum
deriving DecidableEq, Repr

/-- Outcome of one `await engine.get_model_executor_status()`. -/
inductive QueryOutcome where
  | raised
  | statusOk (waiting : Option MonValue)
deriving DecidableEq, Repr

/-- What one iteration of the `while True` body does: the gauge after the
iteration, the sleep it always performs, and whether the loop continues. -/
structure MonitorIter where
  gauge : Option Int
  sleepSeconds : Nat
  loops : Bool
deriving DecidableEq, Repr

/-- One iteration of `monitor_vllm_internal_queue`'s body over the current
gauge value (`none` = never set). -/
def monitor_vllm_internal_queue_iter (g : Option Int) :
    QueryOutcome → MonitorIter
  | .raised => ⟨g, 5, true⟩
  | .statusOk none => ⟨g, 5, true⟩
  | .statusOk (some (.num n)) => ⟨some n, 5, true⟩
  | .statusOk (some .nonNum) => ⟨g, 5, true⟩

/-- The gauge after `n` iterations against the query outcomes `f`.  Being a
total function of `n`, the loop has a well-defined state after every number
of iterations: it never terminates on its own. -/
def monitorRun (g : Option Int) (f : Nat → QueryOutcome) : Nat → Option Int
  | 0 => g
  | n + 1 => (monitor_vllm_internal_queue_iter (monitorRun g f n) (f n)).gauge

/-- The numeric backlog value a query outcome publishes, if any. -/
def numericVal : QueryOutcome → Option Int
  | .statusOk (some (.num n)) => some n
  | _ => none

theorem monitor_iter_gauge (g : Option Int) (q : QueryOutcome) :
    (monitor_vllm_internal_queue_iter g q).gauge =
      ((numericVal q).map some).getD g := by
  cases q with
  | raised => rfl
  | statusOk w =>
      cases w with
      | none => rfl
      | some v => cases v <;> rfl

/-- C8: every iteration of the monitor — whatever the query outcome,
including a raised exception — leaves the loop running and sleeps the fixed
5 seconds; a numeric query result is published to the gauge and anything
else (exception, missing or non-numeric attribute) leaves the gauge
untouched; consequently after any number `n` of iterations the gauge holds
the last numeric result seen (or the initial value if none). -/
theorem monitor_loop_behavior (g : Option Int) (f : Nat → QueryOutcome)
    (n : Nat) (q : QueryOutcome) :
    (monitor_vllm_internal_queue_iter g q).loops = true
  ∧ (monitor_vllm_internal_queue_iter g q).sleepSeconds = 5
  ∧ (∀ v : Int, numericVal q = some v →
      (monitor_vllm_internal_queue_iter g q).gauge = some v)
  ∧ (numericVal q = none → (monitor_vllm_internal_queue_iter g q).gauge = g)
  ∧ monitorRun g f n =
      (((List.range n).filterMap fun i => numericVal (f i)).foldl
        (fun _ v => some v) g) := by
  refine ⟨?_, ?_, ?_, ?_, ?_⟩
  · cases q with
    | raised => rfl
    | statusOk w => cases w with
      | none => rfl
      | some v => cases v <;> rfl
  · cases q with
    | raised => rfl
    | statusOk w => cases w with
      | none => rfl
      | some v => cases v <;> rfl
  · intro v hv
    rw [monitor_iter_gauge, hv]
    rfl
  · intro hv
    rw [monitor_iter_gauge, hv]
    rfl
  · induction n with
    | zero => rfl
    | succ m ihm =>
        rw [monitorRun, ihm, List.range_succ, List.filterMap_append,
          List.foldl_append, monitor_iter_gauge]
        cases hq : numericVal (f m) with
        | none => simp [hq]
        | some v => simp [hq]

theorem monitor_loop_behavior_witness :
    monitorRun none (fun _ => QueryOutcome.raised) 3 =
      (((List.range 3).filterMap fun i =>
          numericVal ((fun _ => QueryOutcome.raised) i)).foldl
        (fun _ v => some v) none) :=
  (monitor_loop_behavior none (fun _ => QueryOutcome.raised) 3
    QueryOutcome.raised).2.2.2.2

end VllmGateway
